import Mathlib

/-!
Verification of the chunked capture → queued transcription → ordered append
pipeline of `whisper_recorder.py`.

Shallow embedding conventions:

* Text produced by the transcription engine is represented by its list of
  lines, each line a `List Char` (the file on disk is identified with the
  list obtained by splitting its contents on the newline character; the
  source's `result["text"].strip()` is taken as the already-stripped text
  whose lines we carry).
* The fallible external collaborators (the Whisper engine's two passes and
  `os.remove`) are modelled by the outcome the outside world returns for a
  given job: `Except String` for the engine calls, a `Bool` for removal.
* Side effects of `process_audio` (appends to the two master files,
  removal of the temporary audio file) are modelled as an explicit event
  trace, in the order the source performs them.
-/

/-- A body of text as written to a master file: the list of its lines. -/
abbrev Body := List (List Char)

deriving instance DecidableEq for Except

/-- One queued transcription job: the tuple `(audio_file, chunk_num)` put on
`audio_queue`, together with the outcome the external world returns for this
job (the engine's transcribe pass, its translate pass, whether `os.remove`
would succeed) and the timestamp taken at processing time. -/
structure Job where
  audio_file : String
  chunk_num : Option Nat
  ts : List Char
  transcribeResult : Except String Body
  translateResult : Except String Body
  removeOk : Bool

deriving DecidableEq, Repr

/-- One entry of a master transcript file: the header data (chunk number if
in continuous mode, timestamp) and the body text written below the header.
Corresponds to the `f.write` pair at lines 52-58 resp. 68-73 of the source. -/
structure Entry where
  chunk : Option Nat
  ts : List Char
  body : Body

deriving DecidableEq, Repr

/-- An observable side effect of `process_audio`, in source order:
an append to the master original file (lines 53-58), an append to the master
translation file (lines 68-73), or the attempt to delete the temporary audio
file (lines 77-82, `ok` records whether `os.remove` succeeded). -/
inductive Event where
  | appendOrig (e : Entry)
  | appendTrans (e : Entry)
  | removeTemp (file : String) (ok : Bool)

deriving DecidableEq, Repr

/-- `process_audio` (source lines 36-87).  The whole body runs under one
`try`: the transcribe pass, the append to the original file, the translate
pass, the append to the translation file, then (unless `keep_audio`) the
removal of the temporary file, whose own failure is caught separately and
only logged.  Any engine exception aborts the rest but leaves the effects
already performed, and the function returns `False`; success returns `True`. -/
def process_audio (keep_audio : Bool) (j : Job) : Bool × List Event :=
  match j.transcribeResult with
  | Except.error _ => (false, [])
  | Except.ok origBody =>
    let e1 : Entry := ⟨j.chunk_num, j.ts, origBody⟩
    match j.translateResult with
    | Except.error _ => (false, [Event.appendOrig e1])
    | Except.ok transBody =>
      let e2 : Entry := ⟨j.chunk_num, j.ts, transBody⟩
      (true, [Event.appendOrig e1, Event.appendTrans e2] ++
        (if keep_audio then [] else [Event.removeTemp j.audio_file j.removeOk]))

/-- An item on `audio_queue`: either a real job `(audio_file, chunk_num)` or
the shutdown sentinel `(None, None)` (source lines 193 and 233). -/
inductive QItem where
  | job (j : Job)
  | sentinel

deriving DecidableEq, Repr

/-- `transcription_worker` (source lines 89-104), as a function of the list
of items this worker dequeues, in dequeue order.  Returns the event trace the
worker produces and whether it exited its loop via the sentinel `break`.
A dequeued sentinel produces no events and stops the loop; a dequeued job is
processed to completion by `process_audio` before the next dequeue. -/
def transcription_worker (keep_audio : Bool) : List QItem → List Event × Bool
  | [] => ([], false)
  | QItem.sentinel :: _ => ([], true)
  | QItem.job j :: rest =>
    let r := transcription_worker keep_audio rest
    ((process_audio keep_audio j).2 ++ r.1, r.2)

/-- The sentinels enqueued at shutdown: `for _ in workers: audio_queue.put((None, None))`
(source lines 192-193 and 232-233), one per worker. -/
def shutdownSentinels (numWorkers : Nat) : List QItem :=
  List.replicate numWorkers QItem.sentinel

/-- Entries appended to the master original file, in append order. -/
def origEntries (evs : List Event) : List Entry :=
  evs.filterMap fun ev =>
    match ev with
    | Event.appendOrig e => some e
    | _ => none

/-- Entries appended to the master translation file, in append order. -/
def transEntries (evs : List Event) : List Entry :=
  evs.filterMap fun ev =>
    match ev with
    | Event.appendTrans e => some e
    | _ => none

/-- Chunk numbers of the entries appended to the master original file. -/
def origEntryNums (evs : List Event) : List Nat :=
  (origEntries evs).filterMap Entry.chunk

/-- Chunk numbers of the entries appended to the master translation file. -/
def transEntryNums (evs : List Event) : List Nat :=
  (transEntries evs).filterMap Entry.chunk

/-- A successfully transcribed demo job for chunk 1. -/
def demoJob1 : Job :=
  ⟨"temp_audio_chunk_1.wav", some 1, ['t', '1'],
    Except.ok [['h', 'i']], Except.ok [['h', 'i']], true⟩

/-- A successfully transcribed demo job for chunk 2. -/
def demoJob2 : Job :=
  ⟨"temp_audio_chunk_2.wav", some 2, ['t', '2'],
    Except.ok [['y', 'o']], Except.ok [['y', 'o']], true⟩

/-- A demo job for chunk 1 whose transcribe pass raises. -/
def demoFailJob : Job :=
  ⟨"temp_audio_chunk_1.wav", some 1, ['t', '1'],
    Except.error "engine error", Except.ok [['h', 'i']], true⟩

/-- State of the worker pool sharing `audio_queue` (source lines 147-159):
the jobs still queued in FIFO order, for each worker the job it is currently
processing (if any), the interleaved event trace of all appends performed so
far on the two master files, and the jobs completed so far in completion
order. -/
structure PoolState (W : Nat) where
  queue : List Job
  busy : Fin W → Option Job
  events : List Event
  done : List Job

/-- One scheduler step of the pool, performed by worker `w`: an idle worker
dequeues the head of the FIFO queue (`audio_queue.get()`), a busy worker
finishes its current job, emitting the side effects of `process_audio` at
completion time.  The interleaving of these steps across workers is
arbitrary, which models the arbitrary completion order of parallel workers
with varying transcription latency. -/
def poolStep (keep_audio : Bool) {W : Nat} (s : PoolState W) (w : Fin W) : PoolState W :=
  match s.busy w with
  | some j =>
    { s with
      busy := Function.update s.busy w none
      events := s.events ++ (process_audio keep_audio j).2
      done := s.done ++ [j] }
  | none =>
    match s.queue with
    | [] => s
    | j :: rest => { s with queue := rest, busy := Function.update s.busy w (some j) }

/-- Initial pool state: all jobs enqueued in chunk order (the producer loop
enqueues chunk `k` before chunk `k+1`), every worker idle, nothing written. -/
def initPool (W : Nat) (jobs : List Job) : PoolState W :=
  ⟨jobs, fun _ => none, [], []⟩

/-- Run the pool under an explicit schedule: the list of worker indices in
the order in which the scheduler lets them act. -/
def runPool (keep_audio : Bool) (W : Nat) (jobs : List Job) (sched : List (Fin W)) :
    PoolState W :=
  sched.foldl (poolStep keep_audio) (initPool W jobs)

/-- The pool has drained: the queue is empty and no worker holds a job.
This is the state `audio_queue.join()` (source line 189) waits for. -/
def quiescent {W : Nat} (s : PoolState W) : Prop :=
  s.queue = [] ∧ ∀ w, s.busy w = none

instance {W : Nat} (s : PoolState W) : Decidable (quiescent s) :=
  inferInstanceAs (Decidable (s.queue = [] ∧ ∀ w, s.busy w = none))

/-- The event trace `process_audio` produces for one job. -/
def jobEvents (keep_audio : Bool) (j : Job) : List Event :=
  (process_audio keep_audio j).2

/-- Invariant of the single-worker pool: some prefix of the job list is done
(in order, with its events emitted in order), and the worker is either idle
with the rest still queued, or busy with the next job. -/
def SeqInv (keep_audio : Bool) (jobs : List Job) (s : PoolState 1) : Prop :=
  ∃ k, s.done = jobs.take k ∧
    s.events = (jobs.take k).flatMap (jobEvents keep_audio) ∧
    ((s.busy 0 = none ∧ s.queue = jobs.drop k) ∨
     (∃ h : k < jobs.length, s.busy 0 = some (jobs.get ⟨k, h⟩) ∧ s.queue = jobs.drop (k + 1)))

/-- The jobs currently held by busy workers, as a multiset. -/
def busyLoad {W : Nat} (s : PoolState W) : Multiset Job :=
  ∑ w : Fin W, (((s.busy w).toList : List Job) : Multiset Job)

/-- The capture loop of continuous mode (source lines 167-182), iterated over
the exit statuses of the successive `ffmpeg` capture processes.  Each
iteration records a chunk, waits for the process — whose exit status is never
inspected — and unconditionally enqueues `(audio_file, chunk_num)`, then
increments the chunk counter.  Returns the chunk numbers enqueued, in order. -/
def continuousCaptureLoop : List Int → Nat → List Nat
  | [], _ => []
  | _exitStatus :: rest, chunk_num => chunk_num :: continuousCaptureLoop rest (chunk_num + 1)

/-- The characters `Chunk ` as they appear in the header written by
`f.write(f"\n\n[Chunk {chunk_num} - {timestamp}]\n")` (source lines 55, 70). -/
def chunkTag : List Char := ['C', 'h', 'u', 'n', 'k', ' ']

/-- The separator ` - ` between chunk number and timestamp in an entry header. -/
def sepTag : List Char := [' ', '-', ' ']

/-- The characters `# Ended: ` of the end-of-session marker
`f.write(f"\n\n# Ended: {end_time}\n")` (source lines 198, 200, 238, 240). -/
def endedTag : List Char := ['#', ' ', 'E', 'n', 'd', 'e', 'd', ':', ' ']

/-- Decimal digit character, as Python's `str` prints it. -/
def digitChar : Nat → Char
  | 0 => '0'
  | 1 => '1'
  | 2 => '2'
  | 3 => '3'
  | 4 => '4'
  | 5 => '5'
  | 6 => '6'
  | 7 => '7'
  | 8 => '8'
  | _ => '9'

/-- Numeric value of a digit character. -/
def charVal (c : Char) : Nat := c.toNat - 48

/-- Decimal representation of a natural number, as interpolated by the
f-string `f"[Chunk {chunk_num} - {timestamp}]"`. -/
def numChars (n : Nat) : List Char :=
  if n < 10 then [digitChar n]
  else numChars (n / 10) ++ [digitChar (n % 10)]
decreasing_by exact Nat.div_lt_self (by omega) (by omega)

/-- Read back a decimal digit string. -/
def readNatChars (ds : List Char) : Nat :=
  ds.foldl (fun acc c => acc * 10 + charVal c) 0

/-- `dropTag tag l` strips the literal prefix `tag` from `l`, if present. -/
def dropTag : List Char → List Char → Option (List Char)
  | [], l => some l
  | _ :: _, [] => none
  | t :: ts, c :: cs => if c = t then dropTag ts cs else none

/-- The header line written above an entry's body: `[Chunk <n> - <ts>]` in
continuous mode, `[<ts>]` in one-shot mode (source lines 54-57, 69-72). -/
def entryHeaderLine : Option Nat → List Char → List Char
  | some n, ts => '[' :: (chunkTag ++ numChars n ++ sepTag ++ ts ++ [']'])
  | none, ts => '[' :: (ts ++ [']'])

/-- The lines one appended entry contributes to a master file.  Appending
`"\n\n" ++ header ++ "\n" ++ body` to a file whose current content does not
end in a newline (resp. whose header block ends in exactly one) contributes,
in the newline-split view of the file, one empty separator line, the header
line, and the body's lines. -/
def entryBlock (e : Entry) : List (List Char) :=
  [] :: entryHeaderLine e.chunk e.ts :: e.body

/-- A complete master file, as the newline-split list of its lines: the
session header block written at lines 131-139 of the source, the appended
entries, and the end-of-session marker `"\n\n# Ended: <ts>\n"`. -/
def fileLines (hdrLines : List (List Char)) (entries : List Entry) (endTs : List Char) :
    List (List Char) :=
  hdrLines ++ [[]] ++ entries.flatMap entryBlock ++ [[]] ++ [endedTag ++ endTs, []]

/-- A line is an entry-header marker when it is bracketed `[...]`. -/
def isHeaderLine (l : List Char) : Bool :=
  decide (l.head? = some '[') && decide (l.getLast? = some ']')

/-- A line belongs to the current entry's body when it is neither an entry
header nor a `#`-structural line (session header / end marker). -/
def isBodyLine (l : List Char) : Bool :=
  !isHeaderLine l && !decide (l.head? = some '#')

/-- Drop trailing empty lines (the blank separator written before the next
entry or the end marker). -/
def dropTrailingEmpty (ls : List (List Char)) : List (List Char) :=
  (ls.reverse.dropWhile List.isEmpty).reverse

/-- Recover an entry's body from the lines collected after its header: strip
the trailing blank separator lines; an empty remainder denotes the empty
body, whose newline-split view is the single empty line. -/
def normBody (ls : List (List Char)) : Body :=
  match dropTrailingEmpty ls with
  | [] => [[]]
  | d => d

/-- Extract the chunk number from a header line `[Chunk <n> - <ts>]`;
a header without the `Chunk ` tag or without digits is a plain timestamp
header and has no chunk number. -/
def headerChunkNum (l : List Char) : Option Nat :=
  match l with
  | [] => none
  | c :: rest =>
    if c = '[' then
      match dropTag chunkTag rest with
      | some r =>
        match r.takeWhile Char.isDigit with
        | [] => none
        | ds => some (readNatChars ds)
      | none => none
    else none

/-- Modelled from the spec: the repository contains no parser for master
files, so this parses a file back by its header markers per the round-trip
property of §8 of the spec: every bracketed line starts an entry; the lines
following it up to the next header marker or `#`-structural line form its
body, modulo the blank separator lines the writer inserts. -/
def parseEntries : List (List Char) → List (Option Nat × Body)
  | [] => []
  | l :: ls =>
    if isHeaderLine l then
      (headerChunkNum l, normBody (ls.takeWhile isBodyLine))
        :: parseEntries (ls.dropWhile isBodyLine)
    else
      parseEntries ls
termination_by lines => lines.length
decreasing_by
  · exact Nat.lt_succ_of_le (List.dropWhile_sublist isBodyLine).length_le
  · exact Nat.lt_succ_self _

/-- Modelled from the spec (§8, boundary property): a pass-through Sequencer
releases each result to the writer immediately upon completion, so its output
is the jobs' event traces concatenated in enqueue order. -/
def specPassThrough (keep_audio : Bool) (jobs : List Job) : List Event :=
  jobs.flatMap (jobEvents keep_audio)

/-- A demo job whose translate pass raises after a successful transcribe. -/
def demoTransFailJob : Job :=
  ⟨"temp_audio_chunk_2.wav", some 2, ['t', '2'],
    Except.ok [['o', 'k']], Except.error "engine error", true⟩

/-- Demo entry for chunk 1 of a session. -/
def demoEntry1 : Entry :=
  ⟨some 1, "2025-01-01 10:00:00".data, [['h', 'e', 'l', 'l', 'o']]⟩

/-- Demo entry for chunk 2 of a session. -/
def demoEntry2 : Entry :=
  ⟨some 2, "2025-01-01 10:00:30".data, [['w', 'o'], [], ['r', 'l', 'd']]⟩

/-- Demo session header block, as written at source lines 131-135. -/
def demoHeaderLines : List (List Char) :=
  ["# Master Original Transcription - demo".data,
   "# Started: 2025-01-01 10:00:00".data]

/-- Demo end-of-session timestamp. -/
def demoEndTs : List Char := "2025-01-01 10:01:00".data

example : (process_audio false demoJob1).1 = true := by decide

example : (process_audio false demoFailJob) = (false, []) := by decide

example : transcription_worker false [QItem.job demoFailJob, QItem.sentinel] = ([], true) := by
  decide

example : quiescent (runPool false 1 [demoJob1, demoJob2] [0, 0, 0, 0]) := by decide

example :
    origEntryNums (runPool false 2 [demoJob1, demoJob2] [0, 1, 1, 0]).events = [2, 1] := by
  decide

example : continuousCaptureLoop [0, 1, 0] 1 = [1, 2, 3] := by decide

lemma poolStep_busy {W : Nat} (keep_audio : Bool) (s : PoolState W) (w : Fin W) (j : Job)
    (h : s.busy w = some j) :
    poolStep keep_audio s w =
      { s with
        busy := Function.update s.busy w none
        events := s.events ++ (process_audio keep_audio j).2
        done := s.done ++ [j] } := by
  unfold poolStep
  rw [h]

lemma poolStep_idle_nil {W : Nat} (keep_audio : Bool) (s : PoolState W) (w : Fin W)
    (h : s.busy w = none) (hq : s.queue = []) : poolStep keep_audio s w = s := by
  unfold poolStep
  rw [h, hq]

lemma poolStep_idle_cons {W : Nat} (keep_audio : Bool) (s : PoolState W) (w : Fin W)
    (j : Job) (rest : List Job) (h : s.busy w = none) (hq : s.queue = j :: rest) :
    poolStep keep_audio s w =
      { s with queue := rest, busy := Function.update s.busy w (some j) } := by
  unfold poolStep
  rw [h, hq]

lemma seqInv_initPool (keep_audio : Bool) (jobs : List Job) :
    SeqInv keep_audio jobs (initPool 1 jobs) :=
  ⟨0, by simp [initPool], by simp [initPool], Or.inl ⟨rfl, by simp [initPool]⟩⟩

lemma seqInv_step (keep_audio : Bool) (jobs : List Job) (s : PoolState 1) (w : Fin 1)
    (h : SeqInv keep_audio jobs s) : SeqInv keep_audio jobs (poolStep keep_audio s w) := by
  obtain ⟨k, hdone, hev, hrest⟩ := h
  have hw : w = 0 := Subsingleton.elim w 0
  subst hw
  rcases hrest with ⟨hbusy, hqueue⟩ | ⟨hk, hbusy, hqueue⟩
  · cases hq : jobs.drop k with
    | nil =>
      rw [poolStep_idle_nil keep_audio s 0 hbusy (by rw [hqueue, hq])]
      exact ⟨k, hdone, hev, Or.inl ⟨hbusy, hqueue⟩⟩
    | cons j rest =>
      have hk : k < jobs.length := by
        by_contra hc
        rw [List.drop_eq_nil_iff.mpr (by omega)] at hq
        exact List.noConfusion hq
      have hget : jobs.get ⟨k, hk⟩ :: List.drop (k + 1) jobs = j :: rest := by
        rw [← hq]
        exact (List.drop_eq_getElem_cons hk).symm
      obtain ⟨hj, hrest2⟩ := List.cons.inj hget
      rw [poolStep_idle_cons keep_audio s 0 j rest hbusy (by rw [hqueue, hq])]
      refine ⟨k, hdone, hev, Or.inr ⟨hk, ?_, ?_⟩⟩
      · show Function.update s.busy 0 (some j) 0 = some (jobs.get ⟨k, hk⟩)
        rw [Function.update_same]
        exact congrArg some hj.symm
      · exact hrest2.symm
  · have htake : jobs.take (k + 1) = jobs.take k ++ [jobs.get ⟨k, hk⟩] := by
      rw [← List.take_concat_get jobs k hk, List.concat_eq_append]
      rfl
    rw [poolStep_busy keep_audio s 0 _ hbusy]
    refine ⟨k + 1, ?_, ?_, Or.inl ⟨?_, ?_⟩⟩
    · show s.done ++ [jobs.get ⟨k, hk⟩] = jobs.take (k + 1)
      rw [hdone, htake]
    · show s.events ++ (process_audio keep_audio (jobs.get ⟨k, hk⟩)).2
        = (jobs.take (k + 1)).flatMap (jobEvents keep_audio)
      rw [hev, htake, List.flatMap_append]
      simp [jobEvents]
    · show Function.update s.busy 0 none 0 = none
      rw [Function.update_same]
    · exact hqueue

lemma seqInv_foldl (keep_audio : Bool) (jobs : List Job) :
    ∀ (sched : List (Fin 1)) (s : PoolState 1), SeqInv keep_audio jobs s →
      SeqInv keep_audio jobs (sched.foldl (poolStep keep_audio) s)
  | [], _, h => h
  | w :: ws, s, h =>
    seqInv_foldl keep_audio jobs ws (poolStep keep_audio s w)
      (seqInv_step keep_audio jobs s w h)

/-- With a single worker, a drained pool has processed every job exactly
once, in enqueue order, emitting the append events in that same order. -/
lemma runPool_one_quiescent (keep_audio : Bool) (jobs : List Job) (sched : List (Fin 1))
    (h : quiescent (runPool keep_audio 1 jobs sched)) :
    (runPool keep_audio 1 jobs sched).events = jobs.flatMap (jobEvents keep_audio) ∧
    (runPool keep_audio 1 jobs sched).done = jobs := by
  have hrun : runPool keep_audio 1 jobs sched
      = sched.foldl (poolStep keep_audio) (initPool 1 jobs) := rfl
  obtain ⟨k, hdone, hev, hrest⟩ :=
    seqInv_foldl keep_audio jobs sched (initPool 1 jobs) (seqInv_initPool keep_audio jobs)
  rw [← hrun] at hdone hev hrest
  obtain ⟨hq, hb⟩ := h
  rcases hrest with ⟨_, hqueue⟩ | ⟨hk, hbusy, _⟩
  · have hlen : jobs.length ≤ k := by
      rw [hq] at hqueue
      exact List.drop_eq_nil_iff.mp hqueue.symm
    rw [List.take_of_length_le hlen] at hdone hev
    exact ⟨hev, hdone⟩
  · exfalso
    rw [hb 0] at hbusy
    exact Option.noConfusion hbusy

lemma busyLoad_update {W : Nat} (busy : Fin W → Option Job) (w : Fin W) (v : Option Job) :
    (∑ x : Fin W, ((Function.update busy w v x).toList : Multiset Job))
      = ((v.toList : List Job) : Multiset Job)
        + ∑ x in Finset.univ.erase w, ((busy x).toList : Multiset Job) := by
  have hfun : (fun x => (((Function.update busy w v x).toList : List Job) : Multiset Job))
      = Function.update (fun x => (((busy x).toList : List Job) : Multiset Job)) w
          ((v.toList : List Job) : Multiset Job) := by
    funext x
    by_cases hx : x = w
    · subst hx
      rw [Function.update_same, Function.update_same]
    · rw [Function.update_noteq hx, Function.update_noteq hx]
  calc (∑ x : Fin W, ((Function.update busy w v x).toList : Multiset Job))
      = ∑ x : Fin W, Function.update (fun y => (((busy y).toList : List Job) : Multiset Job)) w
          ((v.toList : List Job) : Multiset Job) x := by rw [hfun]
    _ = _ := by
        rw [Finset.sum_update_of_mem (Finset.mem_univ w), Finset.erase_eq]

lemma busyLoad_split {W : Nat} (s : PoolState W) (w : Fin W) :
    busyLoad s = (((s.busy w).toList : List Job) : Multiset Job)
      + ∑ x in Finset.univ.erase w, ((s.busy x).toList : Multiset Job) :=
  (Finset.add_sum_erase Finset.univ
    (fun x => (((s.busy x).toList : List Job) : Multiset Job)) (Finset.mem_univ w)).symm

/-- Each scheduler step conserves the multiset of jobs distributed over the
queue, the busy workers and the completed list. -/
lemma poolStep_mass (keep_audio : Bool) {W : Nat} (s : PoolState W) (w : Fin W) :
    ((poolStep keep_audio s w).done : Multiset Job) + busyLoad (poolStep keep_audio s w)
        + ((poolStep keep_audio s w).queue : Multiset Job)
      = (s.done : Multiset Job) + busyLoad s + (s.queue : Multiset Job) := by
  cases hbusy : s.busy w with
  | some j =>
    rw [poolStep_busy keep_audio s w j hbusy]
    have h1 : busyLoad
        { s with
          busy := Function.update s.busy w none
          events := s.events ++ (process_audio keep_audio j).2
          done := s.done ++ [j] }
        = ∑ x in Finset.univ.erase w, ((s.busy x).toList : Multiset Job) := by
      show (∑ x : Fin W, ((Function.update s.busy w none x).toList : Multiset Job)) = _
      rw [busyLoad_update]
      simp
    rw [h1, busyLoad_split s w, hbusy]
    rw [← Multiset.coe_add]
    rw [show ((some j : Option Job)).toList = ([j] : List Job) from rfl]
    abel
  | none =>
    cases hq : s.queue with
    | nil =>
      rw [poolStep_idle_nil keep_audio s w hbusy hq, hq]
    | cons j rest =>
      rw [poolStep_idle_cons keep_audio s w j rest hbusy hq]
      have h1 : busyLoad { s with queue := rest, busy := Function.update s.busy w (some j) }
          = ↑[j] + ∑ x in Finset.univ.erase w, ((s.busy x).toList : Multiset Job) := by
        show (∑ x : Fin W, ((Function.update s.busy w (some j) x).toList : Multiset Job)) = _
        rw [busyLoad_update]
        rfl
      rw [h1, busyLoad_split s w, hbusy]
      show (s.done : Multiset Job)
          + (↑[j] + ∑ x in Finset.univ.erase w, ((s.busy x).toList : Multiset Job))
          + (rest : Multiset Job)
        = (s.done : Multiset Job)
          + ((((none : Option Job).toList : List Job) : Multiset Job)
            + ∑ x in Finset.univ.erase w, ((s.busy x).toList : Multiset Job))
          + ((j :: rest : List Job) : Multiset Job)
      rw [show ((none : Option Job)).toList = ([] : List Job) from rfl]
      simp only [← Multiset.cons_coe, ← Multiset.singleton_add, Multiset.coe_nil]
      abel

lemma runPool_mass (keep_audio : Bool) (W : Nat) (jobs : List Job) (sched : List (Fin W)) :
    ((runPool keep_audio W jobs sched).done : Multiset Job)
        + busyLoad (runPool keep_audio W jobs sched)
        + ((runPool keep_audio W jobs sched).queue : Multiset Job)
      = (jobs : Multiset Job) := by
  have hgen : ∀ (ws : List (Fin W)) (s : PoolState W),
      ((ws.foldl (poolStep keep_audio) s).done : Multiset Job)
          + busyLoad (ws.foldl (poolStep keep_audio) s)
          + ((ws.foldl (poolStep keep_audio) s).queue : Multiset Job)
        = (s.done : Multiset Job) + busyLoad s + (s.queue : Multiset Job) := by
    intro ws
    induction ws with
    | nil => intro s; rfl
    | cons w ws ih =>
      intro s
      rw [List.foldl_cons, ih (poolStep keep_audio s w), poolStep_mass]
  rw [runPool, hgen]
  show ((initPool W jobs).done : Multiset Job) + busyLoad (initPool W jobs)
      + ((initPool W jobs).queue : Multiset Job) = _
  have h0 : busyLoad (initPool W jobs) = 0 := by
    rw [busyLoad]
    exact Finset.sum_eq_zero (fun w _ => rfl)
  rw [h0]
  show ((([] : List Job)) : Multiset Job) + 0 + (jobs : Multiset Job) = (jobs : Multiset Job)
  simp

lemma origEntries_append (l1 l2 : List Event) :
    origEntries (l1 ++ l2) = origEntries l1 ++ origEntries l2 := by
  simp [origEntries]

lemma transEntries_append (l1 l2 : List Event) :
    transEntries (l1 ++ l2) = transEntries l1 ++ transEntries l2 := by
  simp [transEntries]

lemma origEntryNums_append (l1 l2 : List Event) :
    origEntryNums (l1 ++ l2) = origEntryNums l1 ++ origEntryNums l2 := by
  simp [origEntryNums, origEntries_append]

lemma transEntryNums_append (l1 l2 : List Event) :
    transEntryNums (l1 ++ l2) = transEntryNums l1 ++ transEntryNums l2 := by
  simp [transEntryNums, transEntries_append]

lemma entryNums_jobEvents_success (keep_audio : Bool) (j : Job) (n : Nat)
    (b b' : Body) (hb : j.transcribeResult = Except.ok b)
    (ht : j.translateResult = Except.ok b') (hc : j.chunk_num = some n) :
    origEntryNums (jobEvents keep_audio j) = [n]
      ∧ transEntryNums (jobEvents keep_audio j) = [n] := by
  cases keep_audio <;>
    simp [jobEvents, process_audio, hb, ht, hc, origEntryNums, transEntryNums,
      origEntries, transEntries]

/-- Pushing a list of all-successful jobs through `process_audio` in order
yields exactly the jobs' chunk numbers, in order, in both master files. -/
lemma entryNums_flatMap (keep_audio : Bool) :
    ∀ (jobs : List Job) (ns : List Nat),
      jobs.map Job.chunk_num = ns.map some →
      (∀ j ∈ jobs, (∃ b, j.transcribeResult = Except.ok b)
        ∧ (∃ b, j.translateResult = Except.ok b)) →
      origEntryNums (jobs.flatMap (jobEvents keep_audio)) = ns
        ∧ transEntryNums (jobs.flatMap (jobEvents keep_audio)) = ns
  | [], ns, hmap, _ => by
    cases ns with
    | nil => simp [origEntryNums, transEntryNums, origEntries, transEntries]
    | cons n ns => simp at hmap
  | j :: jobs, ns, hmap, hok => by
    cases ns with
    | nil => simp at hmap
    | cons n ns =>
      simp only [List.map_cons, List.cons.injEq] at hmap
      obtain ⟨⟨b, hb⟩, ⟨b', ht⟩⟩ := hok j (by simp)
      obtain ⟨h1, h2⟩ := entryNums_jobEvents_success keep_audio j n b b' hb ht hmap.1
      obtain ⟨ih1, ih2⟩ := entryNums_flatMap keep_audio jobs ns hmap.2
        (fun x hx => hok x (by simp [hx]))
      rw [List.flatMap_cons]
      rw [origEntryNums_append, transEntryNums_append, h1, h2, ih1, ih2]
      exact ⟨rfl, rfl⟩

lemma takeWhile_append_all {α : Type} {p : α → Bool} :
    ∀ (xs ys : List α), (∀ x ∈ xs, p x = true) →
      (xs ++ ys).takeWhile p = xs ++ ys.takeWhile p
  | [], ys, _ => rfl
  | x :: xs, ys, h => by
    rw [List.cons_append, List.takeWhile_cons_of_pos (h x (by simp)), List.cons_append,
      takeWhile_append_all xs ys (fun a ha => h a (by simp [ha]))]

lemma dropWhile_append_all {α : Type} {p : α → Bool} :
    ∀ (xs ys : List α), (∀ x ∈ xs, p x = true) →
      (xs ++ ys).dropWhile p = ys.dropWhile p
  | [], _, _ => rfl
  | x :: xs, ys, h => by
    rw [List.cons_append, List.dropWhile_cons_of_pos (h x (by simp)),
      dropWhile_append_all xs ys (fun a ha => h a (by simp [ha]))]

lemma isDigit_digitChar (n : Nat) (h : n < 10) : (digitChar n).isDigit = true := by
  interval_cases n <;> decide

lemma charVal_digitChar (n : Nat) (h : n < 10) : charVal (digitChar n) = n := by
  interval_cases n <;> decide

lemma numChars_lt (n : Nat) (h : n < 10) : numChars n = [digitChar n] := by
  rw [numChars, if_pos h]

lemma numChars_ge (n : Nat) (h : ¬ n < 10) :
    numChars n = numChars (n / 10) ++ [digitChar (n % 10)] := by
  rw [numChars, if_neg h]

lemma numChars_ne_nil (n : Nat) : numChars n ≠ [] := by
  by_cases h : n < 10
  · rw [numChars_lt n h]
    simp
  · rw [numChars_ge n h]
    simp

lemma numChars_all_digit (n : Nat) : ∀ c ∈ numChars n, c.isDigit = true := by
  induction n using Nat.strong_induction_on with
  | _ n ih =>
    by_cases h : n < 10
    · rw [numChars_lt n h]
      intro c hc
      rw [List.mem_singleton] at hc
      rw [hc]
      exact isDigit_digitChar n h
    · rw [numChars_ge n h]
      intro c hc
      rcases List.mem_append.mp hc with hc1 | hc2
      · exact ih (n / 10) (Nat.div_lt_self (by omega) (by omega)) c hc1
      · rw [List.mem_singleton] at hc2
        rw [hc2]
        exact isDigit_digitChar (n % 10) (Nat.mod_lt n (by omega))

lemma foldl_numChars (n : Nat) : ∀ a : Nat,
    List.foldl (fun acc c => acc * 10 + charVal c) a (numChars n)
      = a * 10 ^ (numChars n).length + n := by
  induction n using Nat.strong_induction_on with
  | _ n ih =>
    intro a
    by_cases h : n < 10
    · rw [numChars_lt n h]
      simp [charVal_digitChar n h]
    · rw [numChars_ge n h, List.foldl_append, ih (n / 10) (Nat.div_lt_self (by omega) (by omega)) a]
      simp only [List.foldl_cons, List.foldl_nil, List.length_append, List.length_singleton]
      rw [charVal_digitChar (n % 10) (Nat.mod_lt n (by omega))]
      rw [pow_succ, ← mul_assoc]
      have hdm : 10 * (n / 10) + n % 10 = n := Nat.div_add_mod n 10
      set x := a * 10 ^ (numChars (n / 10)).length with hx
      omega

lemma readNatChars_numChars (n : Nat) : readNatChars (numChars n) = n := by
  have h := foldl_numChars n 0
  simpa [readNatChars] using h

lemma dropTag_self : ∀ (t r : List Char), dropTag t (t ++ r) = some r
  | [], _ => rfl
  | c :: ts, r => by
    rw [List.cons_append]
    simp [dropTag, dropTag_self ts r]

lemma headerChunkNum_some (n : Nat) (ts : List Char) :
    headerChunkNum (entryHeaderLine (some n) ts) = some n := by
  have hshape : entryHeaderLine (some n) ts
      = '[' :: (chunkTag ++ (numChars n ++ (sepTag ++ (ts ++ [']'])))) := by
    unfold entryHeaderLine
    simp [List.append_assoc]
  rw [hshape]
  show (if ('[' : Char) = '[' then
      match dropTag chunkTag (chunkTag ++ (numChars n ++ (sepTag ++ (ts ++ [']'])))) with
      | some r =>
        match r.takeWhile Char.isDigit with
        | [] => none
        | ds => some (readNatChars ds)
      | none => none
    else none) = some n
  rw [if_pos rfl, dropTag_self]
  have htw : (numChars n ++ (sepTag ++ (ts ++ [']']))).takeWhile Char.isDigit
      = numChars n := by
    rw [takeWhile_append_all (numChars n) _ (numChars_all_digit n)]
    rw [show sepTag ++ (ts ++ [']']) = ' ' :: ('-' :: (' ' :: (ts ++ [']']))) from rfl]
    rw [List.takeWhile_cons_of_neg (by decide)]
    simp
  show (match (numChars n ++ (sepTag ++ (ts ++ [']']))).takeWhile Char.isDigit with
    | [] => none
    | ds => some (readNatChars ds)) = some n
  rw [htw]
  obtain ⟨c, cs, hc⟩ := List.exists_cons_of_ne_nil (numChars_ne_nil n)
  rw [hc]
  have hr := readNatChars_numChars n
  rw [hc] at hr
  simp [hr]

lemma headerChunkNum_none (ts : List Char) (h : ts.head? ≠ some 'C') :
    headerChunkNum (entryHeaderLine none ts) = none := by
  have hshape : entryHeaderLine none ts = '[' :: (ts ++ [']']) := rfl
  rw [hshape]
  show (if ('[' : Char) = '[' then
      match dropTag chunkTag (ts ++ [']']) with
      | some r =>
        match r.takeWhile Char.isDigit with
        | [] => none
        | ds => some (readNatChars ds)
      | none => none
    else none) = none
  rw [if_pos rfl]
  have hdt : dropTag chunkTag (ts ++ [']']) = none := by
    cases ts with
    | nil => rfl
    | cons c cs =>
      have hc : c ≠ 'C' := by
        intro hcc
        exact h (by rw [hcc]; rfl)
      rw [List.cons_append]
      simp [dropTag, chunkTag, hc]
  rw [hdt]

lemma isHeaderLine_entry (chunk : Option Nat) (ts : List Char) :
    isHeaderLine (entryHeaderLine chunk ts) = true := by
  cases chunk with
  | some n =>
    have hlast : (entryHeaderLine (some n) ts).getLast? = some ']' := by
      show ('[' :: (chunkTag ++ numChars n ++ sepTag ++ ts ++ [']'])).getLast? = some ']'
      rw [show '[' :: (chunkTag ++ numChars n ++ sepTag ++ ts ++ [']'])
          = ('[' :: (chunkTag ++ numChars n ++ sepTag ++ ts)) ++ [']'] from by simp]
      exact List.getLast?_concat _
    have hhead : (entryHeaderLine (some n) ts).head? = some '[' := rfl
    simp [isHeaderLine, hhead, hlast]
  | none =>
    have hlast : (entryHeaderLine none ts).getLast? = some ']' := by
      show ('[' :: (ts ++ [']'])).getLast? = some ']'
      rw [show '[' :: (ts ++ [']']) = ('[' :: ts) ++ [']'] from by simp]
      exact List.getLast?_concat _
    have hhead : (entryHeaderLine none ts).head? = some '[' := rfl
    simp [isHeaderLine, hhead, hlast]

lemma isHeaderLine_of_hash (l : List Char) (h : l.head? = some '#') :
    isHeaderLine l = false := by
  simp [isHeaderLine, h]

lemma isHeaderLine_nil : isHeaderLine [] = false := by decide

lemma isBodyLine_nil : isBodyLine [] = true := by decide

lemma isBodyLine_of_hash (l : List Char) (h : l.head? = some '#') :
    isBodyLine l = false := by
  simp [isBodyLine, h]

lemma isBodyLine_of_header (l : List Char) (h : isHeaderLine l = true) :
    isBodyLine l = false := by
  simp [isBodyLine, h]

lemma isBodyLine_of_parts (l : List Char) (h1 : isHeaderLine l = false)
    (h2 : l.head? ≠ some '#') : isBodyLine l = true := by
  simp [isBodyLine, h1, h2]

lemma dropTrailingEmpty_append_nil (ls : List (List Char)) :
    dropTrailingEmpty (ls ++ [[]]) = dropTrailingEmpty ls := by
  unfold dropTrailingEmpty
  rw [List.reverse_append]
  rw [show ([[]] : List (List Char)).reverse ++ ls.reverse = [] :: ls.reverse from by simp]
  rw [List.dropWhile_cons_of_pos (by decide)]

lemma dropTrailingEmpty_of_last (body : Body) (hne : body ≠ [])
    (hlast : body.getLast? ≠ some []) : dropTrailingEmpty body = body := by
  unfold dropTrailingEmpty
  cases hrev : body.reverse with
  | nil =>
    exact absurd (by simpa using congrArg List.reverse hrev) hne
  | cons x xs =>
    have hx : x ≠ [] := by
      intro hxe
      apply hlast
      rw [← List.head?_reverse, hrev, hxe]
      rfl
    rw [List.dropWhile_cons_of_neg (by simpa [List.isEmpty_iff] using hx)]
    rw [← hrev, List.reverse_reverse]

lemma normBody_append_nil (body : Body) (hne : body ≠ [])
    (hlast : body = [[]] ∨ body.getLast? ≠ some []) :
    normBody (body ++ [[]]) = body := by
  unfold normBody
  rw [dropTrailingEmpty_append_nil]
  rcases hlast with hb | hb
  · rw [hb]
    rfl
  · rw [dropTrailingEmpty_of_last body hne hb]
    cases body with
    | nil => exact absurd rfl hne
    | cons x xs => rfl

lemma parseEntries_nil : parseEntries [] = [] := by
  rw [parseEntries]

lemma parseEntries_cons_header (l : List Char) (ls : List (List Char))
    (h : isHeaderLine l = true) :
    parseEntries (l :: ls)
      = (headerChunkNum l, normBody (ls.takeWhile isBodyLine))
          :: parseEntries (ls.dropWhile isBodyLine) := by
  rw [parseEntries, if_pos h]

lemma parseEntries_cons_skip (l : List Char) (ls : List (List Char))
    (h : isHeaderLine l = false) :
    parseEntries (l :: ls) = parseEntries ls := by
  rw [parseEntries, if_neg (by simp [h])]

lemma parseEntries_skip_all :
    ∀ (pre ls : List (List Char)), (∀ l ∈ pre, isHeaderLine l = false) →
      parseEntries (pre ++ ls) = parseEntries ls
  | [], _, _ => rfl
  | l :: pre, ls, h => by
    rw [List.cons_append, parseEntries_cons_skip l _ (h l (by simp))]
    exact parseEntries_skip_all pre ls (fun x hx => h x (by simp [hx]))

/-- Parsing the lines contributed by a list of appended entries, followed by
the end-of-session marker block, recovers exactly the entries, provided no
body line mimics a header marker or a `#`-structural line and bodies carry
no trailing blank line (the writer strips its text before appending). -/
lemma parseEntries_blocks (endTs : List Char) :
    ∀ (entries : List Entry),
      (∀ e ∈ entries, ∀ l ∈ e.body, isHeaderLine l = false ∧ l.head? ≠ some '#') →
      (∀ e ∈ entries, e.body ≠ [] ∧ (e.body = [[]] ∨ e.body.getLast? ≠ some [])) →
      (∀ e ∈ entries, e.chunk = none → e.ts.head? ≠ some 'C') →
      parseEntries (entries.flatMap entryBlock ++ [[], endedTag ++ endTs, []])
        = entries.map (fun e => (e.chunk, e.body))
  | [], _, _, _ => by
    rw [List.flatMap_nil, List.nil_append]
    rw [parseEntries_cons_skip _ _ isHeaderLine_nil]
    rw [parseEntries_cons_skip _ _ (isHeaderLine_of_hash (endedTag ++ endTs) rfl)]
    rw [parseEntries_cons_skip _ _ isHeaderLine_nil, parseEntries_nil]
    simp
  | e :: es, hbody, hnorm, hts => by
    have hbodyE : ∀ l ∈ e.body, isBodyLine l = true := by
      intro l hl
      obtain ⟨h1, h2⟩ := hbody e (by simp) l hl
      exact isBodyLine_of_parts l h1 h2
    have hhdr : headerChunkNum (entryHeaderLine e.chunk e.ts) = e.chunk := by
      cases hch : e.chunk with
      | some n => rw [headerChunkNum_some]
      | none => rw [headerChunkNum_none e.ts (hts e (by simp) hch)]
    obtain ⟨hne, hl⟩ := hnorm e (by simp)
    have hshape : (e :: es).flatMap entryBlock ++ [[], endedTag ++ endTs, []]
        = [] :: entryHeaderLine e.chunk e.ts ::
            (e.body ++ (es.flatMap entryBlock ++ [[], endedTag ++ endTs, []])) := by
      simp [entryBlock, List.append_assoc]
    rw [hshape]
    rw [parseEntries_cons_skip _ _ isHeaderLine_nil]
    rw [parseEntries_cons_header _ _ (isHeaderLine_entry e.chunk e.ts)]
    rw [takeWhile_append_all e.body _ hbodyE, dropWhile_append_all e.body _ hbodyE]
    cases es with
    | nil =>
      have hbend : isBodyLine (endedTag ++ endTs) = false := isBodyLine_of_hash (endedTag ++ endTs) rfl
      have ht1 : (([] : List Entry).flatMap entryBlock
          ++ [[], endedTag ++ endTs, []]).takeWhile isBodyLine = [[]] := by
        rw [List.flatMap_nil, List.nil_append]
        rw [List.takeWhile_cons_of_pos isBodyLine_nil,
          List.takeWhile_cons_of_neg (by simp [hbend])]
      have ht2 : (([] : List Entry).flatMap entryBlock
          ++ [[], endedTag ++ endTs, []]).dropWhile isBodyLine = [endedTag ++ endTs, []] := by
        rw [List.flatMap_nil, List.nil_append]
        rw [List.dropWhile_cons_of_pos isBodyLine_nil,
          List.dropWhile_cons_of_neg (by simp [hbend])]
      rw [ht1, ht2]
      rw [parseEntries_cons_skip _ _ (isHeaderLine_of_hash (endedTag ++ endTs) rfl)]
      rw [parseEntries_cons_skip _ _ isHeaderLine_nil, parseEntries_nil]
      rw [normBody_append_nil e.body hne hl, hhdr]
      simp
    | cons e2 es2 =>
      have hshape2 : ((e2 :: es2).flatMap entryBlock ++ [[], endedTag ++ endTs, []])
          = [] :: entryHeaderLine e2.chunk e2.ts ::
              (e2.body ++ (es2.flatMap entryBlock ++ [[], endedTag ++ endTs, []])) := by
        simp [entryBlock, List.append_assoc]
      have hbh : isBodyLine (entryHeaderLine e2.chunk e2.ts) = false :=
        isBodyLine_of_header _ (isHeaderLine_entry _ _)
      have ht1 : ((e2 :: es2).flatMap entryBlock
          ++ [[], endedTag ++ endTs, []]).takeWhile isBodyLine = [[]] := by
        rw [hshape2]
        rw [List.takeWhile_cons_of_pos isBodyLine_nil,
          List.takeWhile_cons_of_neg (by simp [hbh])]
      have ht2 : ((e2 :: es2).flatMap entryBlock
          ++ [[], endedTag ++ endTs, []]).dropWhile isBodyLine
          = entryHeaderLine e2.chunk e2.ts ::
              (e2.body ++ (es2.flatMap entryBlock ++ [[], endedTag ++ endTs, []])) := by
        rw [hshape2]
        rw [List.dropWhile_cons_of_pos isBodyLine_nil,
          List.dropWhile_cons_of_neg (by simp [hbh])]
      rw [ht1, ht2]
      rw [normBody_append_nil e.body hne hl, hhdr]
      have hIH := parseEntries_blocks endTs (e2 :: es2)
        (fun x hx => hbody x (List.mem_cons_of_mem e hx))
        (fun x hx => hnorm x (List.mem_cons_of_mem e hx))
        (fun x hx => hts x (List.mem_cons_of_mem e hx))
      rw [hshape2] at hIH
      rw [parseEntries_cons_skip _ _ isHeaderLine_nil] at hIH
      rw [hIH]
      simp

/-- A drained pool (with any number of workers) has completed exactly the
enqueued jobs: the completion list is a permutation of the enqueue list. -/
lemma runPool_quiescent_done_perm (keep_audio : Bool) (W : Nat) (jobs : List Job)
    (sched : List (Fin W)) (h : quiescent (runPool keep_audio W jobs sched)) :
    (runPool keep_audio W jobs sched).done.Perm jobs := by
  obtain ⟨hq, hb⟩ := h
  have hmass := runPool_mass keep_audio W jobs sched
  have h0 : busyLoad (runPool keep_audio W jobs sched) = 0 := by
    rw [busyLoad]
    exact Finset.sum_eq_zero (fun w _ => by rw [hb w]; rfl)
  rw [h0, hq] at hmass
  simp only [Multiset.coe_nil, add_zero] at hmass
  exact Multiset.coe_eq_coe.mp hmass

/-- C1 (counterexample): with two workers the master files do not receive
entries in strictly increasing chunk order.  Chunks 1 and 2 both transcribe
successfully; worker 0 dequeues chunk 1, worker 1 dequeues chunk 2, worker 1
finishes first (schedule [0,1,1,0]).  Both master files then receive entry 2
before entry 1, refuting the claim for worker counts above one: the code has
no sequencer, workers append at completion time. -/
theorem c1_counterexample :
    origEntryNums (runPool false 2 [demoJob1, demoJob2] [0, 1, 1, 0]).events = [2, 1]
      ∧ transEntryNums (runPool false 2 [demoJob1, demoJob2] [0, 1, 1, 0]).events = [2, 1]
      ∧ ¬ List.Chain' (fun a b : Nat => a < b)
          (origEntryNums (runPool false 2 [demoJob1, demoJob2] [0, 1, 1, 0]).events) := by
  have h1 : origEntryNums (runPool false 2 [demoJob1, demoJob2] [0, 1, 1, 0]).events
      = [2, 1] := by decide
  have h2 : transEntryNums (runPool false 2 [demoJob1, demoJob2] [0, 1, 1, 0]).events
      = [2, 1] := by decide
  refine ⟨h1, h2, ?_⟩
  rw [h1]
  intro hch
  rw [List.chain'_cons] at hch
  exact absurd hch.1 (by omega)

/-- C1 (amended): with exactly one worker, a session of N successfully
transcribed chunks numbered 1..N yields, under every schedule that drains
the queue, exactly N entries in each master file, in strictly increasing
chunk order. -/
theorem c1_single_worker_ordered (keep_audio : Bool) (jobs : List Job)
    (sched : List (Fin 1)) (N : Nat)
    (hmap : jobs.map Job.chunk_num = (List.range' 1 N).map some)
    (hok : ∀ j ∈ jobs, (∃ b, j.transcribeResult = Except.ok b)
      ∧ (∃ b, j.translateResult = Except.ok b))
    (hq : quiescent (runPool keep_audio 1 jobs sched)) :
    origEntryNums (runPool keep_audio 1 jobs sched).events = List.range' 1 N
      ∧ transEntryNums (runPool keep_audio 1 jobs sched).events = List.range' 1 N
      ∧ List.Chain' (fun a b => a < b)
          (origEntryNums (runPool keep_audio 1 jobs sched).events)
      ∧ (origEntryNums (runPool keep_audio 1 jobs sched).events).length = N := by
  obtain ⟨hev, _⟩ := runPool_one_quiescent keep_audio jobs sched hq
  obtain ⟨h1, h2⟩ := entryNums_flatMap keep_audio jobs (List.range' 1 N) hmap hok
  rw [hev, h1, h2]
  refine ⟨rfl, rfl, (List.pairwise_lt_range' 1 N).chain', by simp⟩

/-- C1 (witness for the amended theorem): the two-chunk single-worker session
under schedule [0,0,0,0]. -/
theorem c1_single_worker_ordered_witness :
    ([demoJob1, demoJob2].map Job.chunk_num = (List.range' 1 2).map some)
      ∧ quiescent (runPool false 1 [demoJob1, demoJob2] [0, 0, 0, 0])
      ∧ origEntryNums (runPool false 1 [demoJob1, demoJob2] [0, 0, 0, 0]).events
          = List.range' 1 2 := by
  refine ⟨by decide, by decide, ?_⟩
  refine (c1_single_worker_ordered false [demoJob1, demoJob2] [0, 0, 0, 0] 2
    (by decide) ?_ (by decide)).1
  intro j hj
  simp only [List.mem_cons, List.not_mem_nil, or_false] at hj
  rcases hj with hj | hj <;> subst hj <;> exact ⟨⟨_, rfl⟩, ⟨_, rfl⟩⟩

/-- C2 (counterexample): chunk 1's transcription fails; after the session
(the worker processes the job, then the shutdown sentinel), chunk number 1
appears in neither master file: no retry, no skip marker — it silently
vanishes from the written sequence. -/
theorem c2_counterexample :
    demoFailJob.chunk_num = some 1
      ∧ (1 : Nat) ∉ origEntryNums (transcription_worker false
          [QItem.job demoFailJob, QItem.sentinel]).1
      ∧ (1 : Nat) ∉ transEntryNums (transcription_worker false
          [QItem.job demoFailJob, QItem.sentinel]).1 := by
  decide

/-- C2 (amended): a chunk whose transcription pass fails is silently absent
from both master files: `process_audio` appends nothing for it, and the
worker moves on to the remaining queue items with no retry and no skip
marker. -/
theorem c2_failed_chunk_silently_absent (keep_audio : Bool) (j : Job)
    (rest : List QItem) (msg : String) (h : j.transcribeResult = Except.error msg) :
    origEntryNums (jobEvents keep_audio j) = []
      ∧ transEntryNums (jobEvents keep_audio j) = []
      ∧ (transcription_worker keep_audio (QItem.job j :: rest)).1
          = (transcription_worker keep_audio rest).1 := by
  refine ⟨?_, ?_, ?_⟩
  · simp [jobEvents, process_audio, h, origEntryNums, origEntries]
  · simp [jobEvents, process_audio, h, transEntryNums, transEntries]
  · show (process_audio keep_audio j).2 ++ (transcription_worker keep_audio rest).1 = _
    simp [process_audio, h]

/-- C2 (witness for the amended theorem). -/
theorem c2_failed_chunk_silently_absent_witness :
    demoFailJob.transcribeResult = Except.error "engine error"
      ∧ origEntryNums (jobEvents false demoFailJob) = [] := by
  refine ⟨rfl, ?_⟩
  exact (c2_failed_chunk_silently_absent false demoFailJob [] "engine error" rfl).1

/-- C3: with exactly one worker the pipeline refines the pass-through
sequencer: under every schedule that drains the queue, the event trace
equals the enqueue-order concatenation of the per-job traces (write order =
enqueue order), and the completion order equals the enqueue order. -/
theorem c3_single_worker_pass_through (keep_audio : Bool) (jobs : List Job)
    (sched : List (Fin 1)) (hq : quiescent (runPool keep_audio 1 jobs sched)) :
    (runPool keep_audio 1 jobs sched).events = specPassThrough keep_audio jobs
      ∧ (runPool keep_audio 1 jobs sched).done = jobs :=
  runPool_one_quiescent keep_audio jobs sched hq

/-- C3 (witness): the two-chunk single-worker session. -/
theorem c3_single_worker_pass_through_witness :
    quiescent (runPool false 1 [demoJob1, demoJob2] [0, 0, 0, 0])
      ∧ (runPool false 1 [demoJob1, demoJob2] [0, 0, 0, 0]).events
          = specPassThrough false [demoJob1, demoJob2]
      ∧ (runPool false 1 [demoJob1, demoJob2] [0, 0, 0, 0]).done
          = [demoJob1, demoJob2] := by
  refine ⟨by decide, ?_, ?_⟩
  · exact (c3_single_worker_pass_through false [demoJob1, demoJob2] [0, 0, 0, 0]
      (by decide)).1
  · exact (c3_single_worker_pass_through false [demoJob1, demoJob2] [0, 0, 0, 0]
      (by decide)).2

/-- C4: an engine exception raised during either pass of a job — the
source-language transcribe call or the forced-translate call — is caught
inside that job's processing (`process_audio` returns the failure outcome
`False` instead of propagating), and the worker loop continues: the items
dequeued after the failed job are processed exactly as they would be
otherwise. -/
theorem c4_failure_isolation (keep_audio : Bool) (j : Job) (rest : List QItem)
    (msg : String)
    (h : j.transcribeResult = Except.error msg ∨ j.translateResult = Except.error msg) :
    (process_audio keep_audio j).1 = false
      ∧ transcription_worker keep_audio (QItem.job j :: rest)
          = ((process_audio keep_audio j).2 ++ (transcription_worker keep_audio rest).1,
             (transcription_worker keep_audio rest).2) := by
  constructor
  · rcases h with h | h
    · simp [process_audio, h]
    · cases hb : j.transcribeResult with
      | error msg2 => simp [process_audio, hb]
      | ok b => simp [process_audio, hb, h]
  · rfl

/-- C4 (witness): a job failing in the transcribe pass and a job failing in
the translate pass, each followed by the successful chunk-2 job and a
sentinel: both yield the failure outcome and leave the rest of the queue's
processing unchanged. -/
theorem c4_failure_isolation_witness :
    (demoFailJob.transcribeResult = Except.error "engine error"
        ∨ demoFailJob.translateResult = Except.error "engine error")
      ∧ (process_audio false demoFailJob).1 = false
      ∧ (demoTransFailJob.transcribeResult = Except.error "engine error"
        ∨ demoTransFailJob.translateResult = Except.error "engine error")
      ∧ (process_audio false demoTransFailJob).1 = false
      ∧ transcription_worker false
          [QItem.job demoFailJob, QItem.job demoJob2, QItem.sentinel]
        = ((process_audio false demoFailJob).2
            ++ (transcription_worker false [QItem.job demoJob2, QItem.sentinel]).1,
           (transcription_worker false [QItem.job demoJob2, QItem.sentinel]).2)
      ∧ transcription_worker false
          [QItem.job demoTransFailJob, QItem.job demoJob2, QItem.sentinel]
        = ((process_audio false demoTransFailJob).2
            ++ (transcription_worker false [QItem.job demoJob2, QItem.sentinel]).1,
           (transcription_worker false [QItem.job demoJob2, QItem.sentinel]).2) := by
  refine ⟨Or.inl rfl, ?_, Or.inr rfl, ?_, ?_, ?_⟩
  · exact (c4_failure_isolation false demoFailJob
      [QItem.job demoJob2, QItem.sentinel] "engine error" (Or.inl rfl)).1
  · exact (c4_failure_isolation false demoTransFailJob
      [QItem.job demoJob2, QItem.sentinel] "engine error" (Or.inr rfl)).1
  · exact (c4_failure_isolation false demoFailJob
      [QItem.job demoJob2, QItem.sentinel] "engine error" (Or.inl rfl)).2
  · exact (c4_failure_isolation false demoTransFailJob
      [QItem.job demoJob2, QItem.sentinel] "engine error" (Or.inr rfl)).2

/-- C5 (counterexample): the capture process for chunk 1 exits with status 1
(failure), yet the chunk is still enqueued for transcription — the loop at
source lines 167-182 never inspects the exit status, so no chunk is ever
skipped, refuting the claim that a failed capture is logged and skipped. -/
theorem c5_counterexample :
    continuousCaptureLoop [1] 1 = [1] ∧ (1 : Nat) ∈ continuousCaptureLoop [1] 1 := by
  decide

/-- C5 (amended): the continuous-mode loop ignores the capture process's
exit status entirely: every chunk, whether its capture succeeded or failed,
is enqueued for transcription with consecutive chunk numbers, and the
session continues to the next chunk. -/
theorem c5_capture_status_ignored :
    ∀ (exitStatuses : List Int) (start : Nat),
      continuousCaptureLoop exitStatuses start = List.range' start exitStatuses.length
  | [], _ => rfl
  | _e :: rest, start => by
    rw [show continuousCaptureLoop (_e :: rest) start
        = start :: continuousCaptureLoop rest (start + 1) from rfl]
    rw [c5_capture_status_ignored rest (start + 1)]
    rfl

/-- C6: after cancellation, under any schedule that drains the queue, every
enqueued job has been completed (even jobs that failed), exactly one shutdown
sentinel per worker is enqueued, a worker consuming its sentinel stops, and
both master files end with the `# Ended:` marker block. -/
theorem c6_drain_reaches_ended (keep_audio : Bool) (W : Nat) (jobs : List Job)
    (sched : List (Fin W)) (hdrO hdrT : List (List Char)) (endTs : List Char)
    (hW : 1 ≤ W) (hq : quiescent (runPool keep_audio W jobs sched)) :
    (runPool keep_audio W jobs sched).done.Perm jobs
      ∧ (shutdownSentinels W).length = W
      ∧ transcription_worker keep_audio [QItem.sentinel] = ([], true)
      ∧ [[], endedTag ++ endTs, []]
          <:+ fileLines hdrO (origEntries (runPool keep_audio W jobs sched).events) endTs
      ∧ [[], endedTag ++ endTs, []]
          <:+ fileLines hdrT (transEntries (runPool keep_audio W jobs sched).events) endTs := by
  refine ⟨runPool_quiescent_done_perm keep_audio W jobs sched hq,
    by simp [shutdownSentinels], rfl, ?_, ?_⟩
  · exact ⟨hdrO ++ [[]] ++ (origEntries (runPool keep_audio W jobs sched).events).flatMap
      entryBlock, by simp [fileLines, List.append_assoc]⟩
  · exact ⟨hdrT ++ [[]] ++ (transEntries (runPool keep_audio W jobs sched).events).flatMap
      entryBlock, by simp [fileLines, List.append_assoc]⟩

/-- C6 (witness): a single worker draining a session whose only job failed
transcription; the end markers are still written. -/
theorem c6_drain_reaches_ended_witness :
    1 ≤ 1 ∧ quiescent (runPool false 1 [demoFailJob] [0, 0])
      ∧ (runPool false 1 [demoFailJob] [0, 0]).done.Perm [demoFailJob] := by
  refine ⟨by decide, by decide, ?_⟩
  exact (c6_drain_reaches_ended false 1 [demoFailJob] [0, 0] demoHeaderLines
    demoHeaderLines demoEndTs (by decide) (by decide)).1

/-- C7: exactly one shutdown sentinel is enqueued per worker; a worker that
dequeues the sentinel exits its loop immediately, producing no transcript
events for it, and every job it dequeued beforehand has been processed to
completion before it exits. -/
theorem c7_sentinel_shutdown (keep_audio : Bool) (numWorkers : Nat) :
    (shutdownSentinels numWorkers).length = numWorkers
      ∧ (∀ q ∈ shutdownSentinels numWorkers, q = QItem.sentinel)
      ∧ ∀ (js : List Job) (rest : List QItem),
          transcription_worker keep_audio (js.map QItem.job ++ QItem.sentinel :: rest)
            = (js.flatMap (jobEvents keep_audio), true) := by
  refine ⟨by simp [shutdownSentinels], ?_, ?_⟩
  · intro q hq
    exact List.eq_of_mem_replicate hq
  · intro js rest
    induction js with
    | nil => rfl
    | cons j js ih =>
      show ((process_audio keep_audio j).2
          ++ (transcription_worker keep_audio (js.map QItem.job ++ QItem.sentinel :: rest)).1,
        (transcription_worker keep_audio (js.map QItem.job ++ QItem.sentinel :: rest)).2)
        = ((j :: js).flatMap (jobEvents keep_audio), true)
      rw [ih]
      simp [jobEvents]

/-- C7 (witness): two workers, one job then a sentinel. -/
theorem c7_sentinel_shutdown_witness :
    (shutdownSentinels 2).length = 2
      ∧ QItem.sentinel ∈ shutdownSentinels 2
      ∧ transcription_worker false ([demoJob1].map QItem.job ++ QItem.sentinel :: [QItem.sentinel])
          = ([demoJob1].flatMap (jobEvents false), true) := by
  refine ⟨(c7_sentinel_shutdown false 2).1, by decide, ?_⟩
  exact (c7_sentinel_shutdown false 2).2.2 [demoJob1] [QItem.sentinel]

/-- C8: round-trip.  Serialising an ordered list of entries into a master
file (session header block, each entry as its bracketed header line plus
body, terminal `# Ended:` marker) and parsing the file back by its header
markers reconstructs the same ordered list of (chunk number, body) pairs,
provided no body line itself matches a header marker (a bracketed line or a
`#`-structural line), bodies carry no trailing blank line (the writer strips
its text), and a plain-timestamp header's timestamp does not begin with the
`Chunk ` tag. -/
theorem c8_round_trip (hdrLines : List (List Char)) (entries : List Entry)
    (endTs : List Char)
    (hhdr : ∀ h ∈ hdrLines, h.head? = some '#')
    (hbody : ∀ e ∈ entries, ∀ l ∈ e.body, isHeaderLine l = false ∧ l.head? ≠ some '#')
    (hnorm : ∀ e ∈ entries, e.body ≠ [] ∧ (e.body = [[]] ∨ e.body.getLast? ≠ some []))
    (hts : ∀ e ∈ entries, e.chunk = none → e.ts.head? ≠ some 'C') :
    parseEntries (fileLines hdrLines entries endTs)
      = entries.map (fun e => (e.chunk, e.body)) := by
  have hshape : fileLines hdrLines entries endTs
      = (hdrLines ++ [([] : List Char)])
          ++ (entries.flatMap entryBlock ++ [[], endedTag ++ endTs, []]) := by
    simp [fileLines, List.append_assoc]
  rw [hshape]
  rw [parseEntries_skip_all (hdrLines ++ [[]]) _ ?hpre]
  · exact parseEntries_blocks endTs entries hbody hnorm hts
  case hpre =>
    intro l hl
    rcases List.mem_append.mp hl with hl1 | hl2
    · exact isHeaderLine_of_hash l (hhdr l hl1)
    · rw [List.mem_singleton] at hl2
      rw [hl2]
      exact isHeaderLine_nil

/-- C8 (witness): a concrete two-entry session file parses back to its two
entries. -/
theorem c8_round_trip_witness :
    (∀ h ∈ demoHeaderLines, h.head? = some '#')
      ∧ parseEntries (fileLines demoHeaderLines [demoEntry1, demoEntry2] demoEndTs)
          = [demoEntry1, demoEntry2].map (fun e => (e.chunk, e.body)) := by
  refine ⟨by decide, ?_⟩
  exact c8_round_trip demoHeaderLines [demoEntry1, demoEntry2] demoEndTs
    (by decide) (by decide) (by decide) (by decide)

/-- C9: for a chunk whose two engine passes both succeed, `process_audio`
reports success whether or not the temporary file could be removed, the
removal of the temporary audio file is attempted exactly when the
retain-audio policy is off, and the removal attempt comes only after both
master-file appends, as the last effect of the job. -/
theorem c9_cleanup_policy (keep_audio : Bool) (j : Job) (b b' : Body)
    (hb : j.transcribeResult = Except.ok b) (ht : j.translateResult = Except.ok b') :
    (process_audio keep_audio j).1 = true
      ∧ (process_audio keep_audio j).2
          = [Event.appendOrig ⟨j.chunk_num, j.ts, b⟩,
             Event.appendTrans ⟨j.chunk_num, j.ts, b'⟩]
            ++ (if keep_audio then []
                else [Event.removeTemp j.audio_file j.removeOk])
      ∧ (Event.removeTemp j.audio_file j.removeOk ∈ (process_audio keep_audio j).2
          ↔ keep_audio = false) := by
  cases keep_audio <;> simp [process_audio, hb, ht]

/-- C9 (witness): the successful chunk-1 job with the delete policy on
(`keep_audio = false`): the removal is attempted after both appends and the
job reports success. -/
theorem c9_cleanup_policy_witness :
    demoJob1.transcribeResult = Except.ok [['h', 'i']]
      ∧ (process_audio false demoJob1).1 = true
      ∧ (Event.removeTemp demoJob1.audio_file demoJob1.removeOk
          ∈ (process_audio false demoJob1).2 ↔ false = false) := by
  refine ⟨rfl, ?_, ?_⟩
  · exact (c9_cleanup_policy false demoJob1 [['h', 'i']] [['h', 'i']] rfl rfl).1
  · exact (c9_cleanup_policy false demoJob1 [['h', 'i']] [['h', 'i']] rfl rfl).2.2

/-- C10: chunk processing is not atomic across the two master files.  If the
first (source-language) pass raises, neither file receives anything; if the
translation pass raises after the original append, the original file keeps
its new entry while the translation file receives nothing; and in every
failure case `process_audio` returns `False` and the temporary audio file is
never removed, whatever the retain policy. -/
theorem c10_partial_failure_frame (keep_audio : Bool) (j : Job) :
    (∀ msg, j.transcribeResult = Except.error msg →
      process_audio keep_audio j = (false, []))
      ∧ (∀ b msg, j.transcribeResult = Except.ok b →
          j.translateResult = Except.error msg →
          process_audio keep_audio j
            = (false, [Event.appendOrig ⟨j.chunk_num, j.ts, b⟩]))
      ∧ ((process_audio keep_audio j).1 = false →
          ∀ f ok, Event.removeTemp f ok ∉ (process_audio keep_audio j).2) := by
  refine ⟨?_, ?_, ?_⟩
  · intro msg h
    simp [process_audio, h]
  · intro b msg hb ht
    simp [process_audio, hb, ht]
  · intro hres f ok
    cases hb : j.transcribeResult with
    | error msg => simp [process_audio, hb]
    | ok b =>
      cases ht : j.translateResult with
      | error msg => simp [process_audio, hb, ht]
      | ok b' => simp [process_audio, hb, ht] at hres

/-- C10 (witness): the transcribe-failure job touches neither file; the
translate-failure job leaves exactly the original-file entry; neither job
removes its temporary file. -/
theorem c10_partial_failure_frame_witness :
    process_audio false demoFailJob = (false, [])
      ∧ process_audio false demoTransFailJob
          = (false, [Event.appendOrig ⟨demoTransFailJob.chunk_num, demoTransFailJob.ts,
              [['o', 'k']]⟩])
      ∧ Event.removeTemp "temp_audio_chunk_2.wav" true
          ∉ (process_audio false demoTransFailJob).2 := by
  refine ⟨?_, ?_, ?_⟩
  · exact (c10_partial_failure_frame false demoFailJob).1 "engine error" rfl
  · exact (c10_partial_failure_frame false demoTransFailJob).2.1 [['o', 'k']]
      "engine error" rfl rfl
  · exact (c10_partial_failure_frame false demoTransFailJob).2.2 (by decide)
      "temp_audio_chunk_2.wav" true
